import Mathlib

/-!
Verification of the two migration scripts of this repository:
`refactor_movie_pages.py` (rule-driven text transformer) and
`remove-movie-code.py` (line-range deletion engine).

Documents are modelled as `List Char`.  The Python `str.replace` and the
`re.sub` calls of the scripts (whose patterns are either literal strings
after regex-unescaping, or of the shapes `A.*?B`, `A.*M.*?B`, `A.*?M.*?B`
under `re.DOTALL`) are modelled by explicit left-to-right scanners below.
All scanners are structurally recursive on the document, consuming matched
characters through an auxiliary skip argument, so every definition is
executable by plain kernel reduction. -/

set_option maxRecDepth 10000

namespace KoosPuzzle

/-- Boolean prefix test (tail recursive). -/
def pfxB : List Char → List Char → Bool
  | [], _ => true
  | _ :: _, [] => false
  | a :: as, b :: bs => if a = b then pfxB as bs else false

theorem pfxB_iff : ∀ {x y : List Char}, pfxB x y = true ↔ x <+: y := by
  intro x
  induction x with
  | nil => intro y; simp [pfxB, List.nil_prefix]
  | cons a as ih =>
    intro y
    cases y with
    | nil =>
      simp only [pfxB]
      constructor
      · intro h; exact absurd h (by simp)
      · rintro ⟨t, ht⟩; simp at ht
    | cons b bs =>
      simp only [pfxB]
      by_cases hab : a = b
      · subst hab
        rw [if_pos rfl, ih]
        constructor
        · rintro ⟨t, rfl⟩; exact ⟨t, rfl⟩
        · rintro ⟨t, ht⟩
          injection ht with h1 h2
          exact ⟨t, h2⟩
      · rw [if_neg hab]
        constructor
        · intro h; exact absurd h (by simp)
        · rintro ⟨t, ht⟩
          injection ht with h1 h2
          exact absurd h1 hab

/-- Boolean substring test (the Python `in` operator), tail recursive over `y`. -/
def containsB (pat : List Char) : List Char → Bool
  | [] => pat.isEmpty
  | c :: rest => pfxB pat (c :: rest) || containsB pat rest

theorem containsB_iff : ∀ {pat y : List Char}, containsB pat y = true ↔ pat <:+: y := by
  intro pat y
  induction y with
  | nil =>
    simp only [containsB, List.isEmpty_iff]
    constructor
    · rintro rfl; exact ⟨[], [], rfl⟩
    · rintro ⟨s, t, h⟩
      have h1 := (List.append_eq_nil.mp h).1
      exact (List.append_eq_nil.mp h1).2
  | cons c rest ih =>
    simp only [containsB, Bool.or_eq_true, pfxB_iff, ih]
    constructor
    · rintro (h | h)
      · obtain ⟨t, ht⟩ := h
        exact ⟨[], t, by simpa using ht⟩
      · obtain ⟨s, t, ht⟩ := h
        exact ⟨c :: s, t, by simp [ht]⟩
    · rintro ⟨s, t, h⟩
      cases s with
      | nil => exact Or.inl ⟨t, by simpa using h⟩
      | cons x xs =>
        injection h with h1 h2
        exact Or.inr ⟨xs, t, h2⟩

theorem containsB_false {pat y : List Char} (h : ¬ pat <:+: y) : containsB pat y = false := by
  cases hb : containsB pat y with
  | false => rfl
  | true => exact absurd (containsB_iff.mp hb) h

/-- Left-to-right scan replacing every non-overlapping occurrence of `pat`
by `repl`, resuming immediately after each match: the semantics of Python
`str.replace pat repl` (and of `re.sub` with a literal pattern) for a
nonempty `pat`.  The first list argument holds the characters of a match
that remain to be consumed.  All patterns occurring in the scripts are
nonempty; for `pat = []` the scan is the identity. -/
def raGo (pat repl : List Char) : List Char → List Char → List Char
  | _ :: _, [] => []
  | _ :: ps, _ :: rest => raGo pat repl ps rest
  | [], [] => []
  | [], c :: rest =>
    if pat ≠ [] ∧ pfxB pat (c :: rest) = true then
      repl ++ raGo pat repl pat.tail rest
    else
      c :: raGo pat repl [] rest

/-- Python `str.replace`. -/
def replaceAll (pat repl s : List Char) : List Char := raGo pat repl [] s

/-- Number of non-overlapping occurrences of `pat` found by the same
left-to-right scan as `replaceAll`. -/
def coGo (pat : List Char) : List Char → List Char → Nat
  | _ :: _, [] => 0
  | _ :: ps, _ :: rest => coGo pat ps rest
  | [], [] => 0
  | [], c :: rest =>
    if pat ≠ [] ∧ pfxB pat (c :: rest) = true then
      1 + coGo pat pat.tail rest
    else
      coGo pat [] rest

/-- Occurrence count of `pat` under the `replaceAll` scan. -/
def countOccs (pat s : List Char) : Nat := coGo pat [] s

theorem raGo_skip (pat repl : List Char) :
    ∀ ps s, raGo pat repl ps s = raGo pat repl [] (List.drop ps.length s) := by
  intro ps
  induction ps with
  | nil => intro s; simp
  | cons p ps ih =>
    intro s
    cases s with
    | nil => simp [raGo]
    | cons c rest => simpa [raGo] using ih rest

theorem coGo_skip (pat : List Char) :
    ∀ ps s, coGo pat ps s = coGo pat [] (List.drop ps.length s) := by
  intro ps
  induction ps with
  | nil => intro s; simp
  | cons p ps ih =>
    intro s
    cases s with
    | nil => simp [coGo]
    | cons c rest => simpa [coGo] using ih rest

theorem length_tail_of_ne {pat : List Char} (h : pat ≠ []) :
    pat.tail.length + 1 = pat.length := by
  cases pat with
  | nil => exact absurd rfl h
  | cons a l => simp

theorem replaceAll_cons_pos {pat : List Char} (repl : List Char) {c : Char} {rest : List Char}
    (h1 : pat ≠ []) (h2 : pat <+: (c :: rest)) :
    replaceAll pat repl (c :: rest) =
      repl ++ replaceAll pat repl (List.drop pat.length (c :: rest)) := by
  show raGo pat repl [] (c :: rest) = _
  rw [raGo, if_pos ⟨h1, pfxB_iff.mpr h2⟩, raGo_skip]
  have hl : pat.length = pat.tail.length + 1 := (length_tail_of_ne h1).symm
  rw [hl, List.drop_succ_cons]
  rfl

theorem replaceAll_cons_neg {pat : List Char} (repl : List Char) {c : Char} {rest : List Char}
    (h : ¬ (pat ≠ [] ∧ pat <+: (c :: rest))) :
    replaceAll pat repl (c :: rest) = c :: replaceAll pat repl rest := by
  show raGo pat repl [] (c :: rest) = _
  rw [raGo, if_neg]
  · rfl
  · intro hc
    exact h ⟨hc.1, pfxB_iff.mp hc.2⟩

theorem countOccs_cons_pos {pat : List Char} {c : Char} {rest : List Char}
    (h1 : pat ≠ []) (h2 : pat <+: (c :: rest)) :
    countOccs pat (c :: rest) = 1 + countOccs pat (List.drop pat.length (c :: rest)) := by
  show coGo pat [] (c :: rest) = _
  rw [coGo, if_pos ⟨h1, pfxB_iff.mpr h2⟩, coGo_skip]
  have hl : pat.length = pat.tail.length + 1 := (length_tail_of_ne h1).symm
  rw [hl, List.drop_succ_cons]
  rfl

theorem countOccs_cons_neg {pat : List Char} {c : Char} {rest : List Char}
    (h : ¬ (pat ≠ [] ∧ pat <+: (c :: rest))) :
    countOccs pat (c :: rest) = countOccs pat rest := by
  show coGo pat [] (c :: rest) = _
  rw [coGo, if_neg]
  · rfl
  · intro hc
    exact h ⟨hc.1, pfxB_iff.mp hc.2⟩

/-- Earliest index at which `pat` occurs in `s` (as a prefix of the suffix
starting there): the search performed by a lazy `.*?` wildcard under
`re.DOTALL`. -/
def findFrom (pat : List Char) : List Char → Option Nat
  | [] => if pat = [] then some 0 else none
  | c :: rest =>
    if pfxB pat (c :: rest) = true then some 0
    else (findFrom pat rest).map (· + 1)

/-- Match attempt at the current position for a regex of shape `A.*?B`
(`re.DOTALL`): succeeds iff `a` is a prefix here and `b` occurs later,
and the match extends to the earliest such occurrence of `b`.
Returns the total length of the match. -/
def tryLazy1 (a b : List Char) (t : List Char) : Option Nat :=
  if pfxB a t = true then
    match findFrom b (List.drop a.length t) with
    | some j => some (a.length + j + b.length)
    | none => none
  else none

/-- Earliest index `j` such that `m` occurs at `j` and `b` occurs somewhere
at or after `j + m.length`: the backtracking search of the first lazy
wildcard in a regex of shape `A.*?M.*?B`. -/
def findJFirst (m b : List Char) : List Char → Option Nat
  | [] =>
    if pfxB m [] = true ∧ (findFrom b (List.drop m.length [])).isSome then some 0
    else none
  | c :: rest =>
    if pfxB m (c :: rest) = true ∧ (findFrom b (List.drop m.length (c :: rest))).isSome then
      some 0
    else (findJFirst m b rest).map (· + 1)

/-- Latest such index `j`: the backtracking search of a greedy `.*` followed
by `M.*?B` in a regex of shape `A.*M.*?B` (`re.DOTALL`). -/
def findJLast (m b : List Char) : List Char → Option Nat
  | [] =>
    if pfxB m [] = true ∧ (findFrom b (List.drop m.length [])).isSome then some 0
    else none
  | c :: rest =>
    match findJLast m b rest with
    | some j => some (j + 1)
    | none =>
      if pfxB m (c :: rest) = true ∧ (findFrom b (List.drop m.length (c :: rest))).isSome then
        some 0
      else none

/-- Match attempt for a regex of shape `A.*?M.*?B` (`re.DOTALL`): both
wildcards are lazy, so the first feasible position of `M` is taken and then
the earliest following `B`. -/
def tryLazy2 (a m b : List Char) (t : List Char) : Option Nat :=
  if pfxB a t = true then
    match findJFirst m b (List.drop a.length t) with
    | some j =>
      match findFrom b (List.drop (j + m.length) (List.drop a.length t)) with
      | some k => some (a.length + j + m.length + k + b.length)
      | none => none
    | none => none
  else none

/-- Match attempt for a regex of shape `A.*M.*?B` (`re.DOTALL`): the greedy
`.*` takes the last feasible position of `M`, then the lazy `.*?` the
earliest following `B`. -/
def tryGreedyLazy (a m b : List Char) (t : List Char) : Option Nat :=
  if pfxB a t = true then
    match findJLast m b (List.drop a.length t) with
    | some j =>
      match findFrom b (List.drop (j + m.length) (List.drop a.length t)) with
      | some k => some (a.length + j + m.length + k + b.length)
      | none => none
    | none => none
  else none

/-- Driver of `re.sub`: scan left to right; wherever `tryM` reports a match of
length `n`, emit `repl` and resume after the match, otherwise copy one
character.  The `Nat` argument holds the number of match characters that
remain to be consumed. -/
def ssGo (tryM : List Char → Option Nat) (repl : List Char) : Nat → List Char → List Char
  | _ + 1, [] => []
  | skip + 1, _ :: rest => ssGo tryM repl skip rest
  | 0, [] => []
  | 0, c :: rest =>
    match tryM (c :: rest) with
    | some n => repl ++ ssGo tryM repl (n - 1) rest
    | none => c :: ssGo tryM repl 0 rest

/-- Model of `re.sub` with substitution `repl` for the matcher `tryM`. -/
def scanSub (tryM : List Char → Option Nat) (repl s : List Char) : List Char :=
  ssGo tryM repl 0 s

theorem ssGo_id (tryM : List Char → Option Nat) (repl : List Char) :
    ∀ s, (∀ t, t <:+ s → tryM t = none) → ssGo tryM repl 0 s = s := by
  intro s
  induction s with
  | nil => intro _; rfl
  | cons c rest ih =>
    intro h
    have hc : tryM (c :: rest) = none := h _ (List.suffix_refl _)
    rw [ssGo, hc]
    rw [ih]
    intro t ht
    exact h t (ht.trans (List.suffix_cons c rest))

/-- If the matcher fires nowhere in `s`, the substitution is the identity. -/
theorem scanSub_id (tryM : List Char → Option Nat) (repl : List Char)
    (s : List Char) (h : ∀ t, t <:+ s → tryM t = none) : scanSub tryM repl s = s :=
  ssGo_id tryM repl s h

theorem tryLazy1_none {a : List Char} (b : List Char) {t : List Char}
    (h : ¬ a <+: t) : tryLazy1 a b t = none := by
  rw [tryLazy1, if_neg]
  intro hc
  exact h (pfxB_iff.mp hc)

theorem tryLazy2_none {a : List Char} (m b : List Char) {t : List Char}
    (h : ¬ a <+: t) : tryLazy2 a m b t = none := by
  rw [tryLazy2, if_neg]
  intro hc
  exact h (pfxB_iff.mp hc)

theorem tryGreedyLazy_none {a : List Char} (m b : List Char) {t : List Char}
    (h : ¬ a <+: t) : tryGreedyLazy a m b t = none := by
  rw [tryGreedyLazy, if_neg]
  intro hc
  exact h (pfxB_iff.mp hc)

/-!
Embedding of `refactor_movie_pages.py`.  String literals below use the
escapes `\x7b`, `\x7d`, `\x27` for the brace and quote characters of the
original texts. -/

/-- One entry of the `EFFECTS` configuration table. -/
structure EffectConfig where
  old_import : List Char
  new_import : List Char
  config_type : List Char
  default_config : List Char
  effect_name : List Char
  ref_name : List Char
  handle_type : List Char

/-- The four keys of the `EFFECTS` dictionary (the only keys ever used). -/
inductive EffectKey
  | turntable
  | reveal
  | orbit
  | explosion
deriving DecidableEq

/-- The dictionary key as the string used inside generated fragments. -/
def keyName : EffectKey → List Char
  | .turntable => "turntable".data
  | .reveal => "reveal".data
  | .orbit => "orbit".data
  | .explosion => "explosion".data

/-- The `EFFECTS` table of `refactor_movie_pages.py`. -/
def EFFECTS : EffectKey → EffectConfig
  | .turntable =>
    { old_import := "from \x27../../effects/turntable/TurnTableEffect\x27;".data
      new_import := ("// import \x7b TurnTableEffect \x7d from \x27../../effects/turntable/TurnTableEffect\x27; // OLD: direct management\nimport MovieTurntablePlayer, \x7b type TurntableMovieHandle \x7d from \x27../../effects/turntable/MovieTurntablePlayer\x27; // NEW: headless controller").data
      config_type := "TurnTableConfig".data
      default_config := "DEFAULT_CONFIG".data
      effect_name := "Turntable".data
      ref_name := "turntablePlayerRef".data
      handle_type := "TurntableMovieHandle".data }
  | .reveal =>
    { old_import := "from \x27../../effects/reveal/RevealEffect\x27;".data
      new_import := ("// import \x7b RevealEffect \x7d from \x27../../effects/reveal/RevealEffect\x27; // OLD: direct management\nimport MovieRevealPlayer, \x7b type RevealMovieHandle \x7d from \x27../../effects/reveal/MovieRevealPlayer\x27; // NEW: headless controller").data
      config_type := "RevealConfig".data
      default_config := "DEFAULT_CONFIG".data
      effect_name := "Reveal".data
      ref_name := "revealPlayerRef".data
      handle_type := "RevealMovieHandle".data }
  | .orbit =>
    { old_import := "from \x27../../effects/orbit/OrbitEffect\x27;".data
      new_import := ("// import \x7b OrbitEffect \x7d from \x27../../effects/orbit/OrbitEffect\x27; // OLD: direct management\nimport MovieOrbitPlayer, \x7b type OrbitMovieHandle \x7d from \x27../../effects/orbit/MovieOrbitPlayer\x27; // NEW: headless controller").data
      config_type := "OrbitConfig".data
      default_config := "DEFAULT_CONFIG".data
      effect_name := "Orbit".data
      ref_name := "orbitPlayerRef".data
      handle_type := "OrbitMovieHandle".data }
  | .explosion =>
    { old_import := "from \x27../../effects/explosion/ExplosionEffect\x27;".data
      new_import := ("// import \x7b ExplosionEffect \x7d from \x27../../effects/explosion/ExplosionEffect\x27; // OLD: direct management\nimport MovieExplosionPlayer, \x7b type ExplosionMovieHandle \x7d from \x27../../effects/explosion/MovieExplosionPlayer\x27; // NEW: headless controller").data
      config_type := "ExplosionConfig".data
      default_config := "DEFAULT_CONFIG".data
      effect_name := "Explosion".data
      ref_name := "explosionPlayerRef".data
      handle_type := "ExplosionMovieHandle".data }

/-- The fully constructed legacy import line of step 1. -/
def old_import_line (c : EffectConfig) : List Char :=
  "import \x7b ".data ++ c.effect_name ++ "Effect \x7d ".data ++ c.old_import

/-- Step 1: replace the legacy import line by the new-import block. -/
def step1 (c : EffectConfig) (content : List Char) : List Char :=
  replaceAll (old_import_line c) c.new_import content

/-- The hard-coded legacy state declaration. -/
def old_state : List Char :=
  "  const [activeEffectInstance, setActiveEffectInstance] = useState<any>(null);".data

/-- The generated reference declaration. -/
def new_state (c : EffectConfig) : List Char :=
  "  const ".data ++ c.ref_name ++ " = useRef<".data ++ c.handle_type ++ " | null>(null);".data

/-- Step 2: replace the state declaration. -/
def step2 (c : EffectConfig) (content : List Char) : List Char :=
  replaceAll old_state (new_state c) content

/-- The last of the step-3 patterns: the optional-chaining access. -/
def aOptPat : List Char := "activeEffectInstance?.".data

/-- The rewritten reference-based form of the optional-chaining access. -/
def refForm (c : EffectConfig) : List Char := c.ref_name ++ ".current?.".data

/-- The ordered `(pattern, replacement)` list of step 3.  Each regex pattern of
the source is a literal string once its escapes (`\.` `\(` `\)` `\&` `\?`
and the escaped brace) are removed, so each `re.sub` is a literal
replace-all. -/
def replacements (c : EffectConfig) : List (List Char × List Char) :=
  [ ("activeEffectInstance.play()".data, c.ref_name ++ ".current?.play()".data),
    ("activeEffectInstance.pause()".data, c.ref_name ++ ".current?.pause()".data),
    ("activeEffectInstance.stop()".data, c.ref_name ++ ".current?.stop()".data),
    ("activeEffectInstance.dispose()".data, c.ref_name ++ ".current?.dispose()".data),
    ("activeEffectInstance.getConfig()".data, c.ref_name ++ ".current?.getConfig()".data),
    ("activeEffectInstance.setRecording(".data, c.ref_name ++ ".current?.setRecording(".data),
    ("activeEffectInstance.setConfig(".data, c.ref_name ++ ".current?.setConfig(".data),
    ("if (activeEffectInstance)".data, "if (".data ++ c.ref_name ++ ".current)".data),
    ("if (!activeEffectInstance)".data, "if (!".data ++ c.ref_name ++ ".current)".data),
    ("activeEffectInstance && (".data, c.ref_name ++ ".current && (".data),
    ("\x7bactiveEffectInstance &&".data, "\x7b".data ++ c.ref_name ++ ".current &&".data),
    (aOptPat, refForm c) ]

/-- Step 3: apply every replacement pair in order. -/
def step3 (c : EffectConfig) (content : List Char) : List Char :=
  (replacements c).foldl (fun acc pr => replaceAll pr.1 pr.2 acc) content

/-- The first eleven replacement pairs of step 3 (everything except the
final optional-chaining rewrite): `replacements c` is definitionally
`frontRepls c ++ [(aOptPat, refForm c)]`. -/
def frontRepls (c : EffectConfig) : List (List Char × List Char) :=
  [ ("activeEffectInstance.play()".data, c.ref_name ++ ".current?.play()".data),
    ("activeEffectInstance.pause()".data, c.ref_name ++ ".current?.pause()".data),
    ("activeEffectInstance.stop()".data, c.ref_name ++ ".current?.stop()".data),
    ("activeEffectInstance.dispose()".data, c.ref_name ++ ".current?.dispose()".data),
    ("activeEffectInstance.getConfig()".data, c.ref_name ++ ".current?.getConfig()".data),
    ("activeEffectInstance.setRecording(".data, c.ref_name ++ ".current?.setRecording(".data),
    ("activeEffectInstance.setConfig(".data, c.ref_name ++ ".current?.setConfig(".data),
    ("if (activeEffectInstance)".data, "if (".data ++ c.ref_name ++ ".current)".data),
    ("if (!activeEffectInstance)".data, "if (!".data ++ c.ref_name ++ ".current)".data),
    ("activeEffectInstance && (".data, c.ref_name ++ ".current && (".data),
    ("\x7bactiveEffectInstance &&".data, "\x7b".data ++ c.ref_name ++ ".current &&".data) ]

/-- Leading literal of the auto-activate block-removal regex. -/
def autoActivateA : List Char :=
  "  // Auto-activate effect when context is ready\n  useEffect(() => \x7b".data

/-- Trailing literal of the auto-activate block-removal regex. -/
def autoActivateB : List Char :=
  "\n  \x7d, [effectContext, activeEffectInstance, movie]);".data

/-- Leading literal of the `handleActivateEffect` block-removal regex. -/
def handleA : List Char := "  // Handle ".data

/-- Middle literal (after the greedy `.*`) of that regex. -/
def handleM : List Char := " activation\n  const handleActivateEffect = ".data

/-- Trailing literal of that regex. -/
def handleB : List Char := "\n  \x7d;".data

/-- Leading literal of the animation-loop block-removal regex. -/
def animLoopA : List Char :=
  "  // Animation loop - tick the active effect on every frame\n  useEffect(() => \x7b".data

/-- Leading literal of the auto-play block-removal regex. -/
def autoPlayA : List Char :=
  "  // Auto-play effect when autoplay parameter is present\n  useEffect(() => \x7b".data

/-- Middle literal shared by the last two block-removal regexes. -/
def loopM : List Char := "\n  \x7d, [".data

/-- Trailing literal shared by the last two block-removal regexes. -/
def loopB : List Char := "]);".data

/-- Step 4, first removal: `A.*?B` with empty replacement. -/
def step4a (content : List Char) : List Char :=
  scanSub (tryLazy1 autoActivateA autoActivateB) [] content

/-- Step 4, second removal: `A.*M.*?B` with empty replacement. -/
def step4b (content : List Char) : List Char :=
  scanSub (tryGreedyLazy handleA handleM handleB) [] content

/-- Step 4, third removal: `A.*?M.*?B` with empty replacement. -/
def step4c (content : List Char) : List Char :=
  scanSub (tryLazy2 animLoopA loopM loopB) [] content

/-- Step 4, fourth removal: `A.*?M.*?B` with empty replacement. -/
def step4d (content : List Char) : List Char :=
  scanSub (tryLazy2 autoPlayA loopM loopB) [] content

/-- Step 4: the four block removals in order. -/
def step4 (content : List Char) : List Char :=
  step4d (step4c (step4b (step4a content)))

/-- The post-insertion marker of step 5. -/
def insert_marker : List Char := "  \x7d, [solution, movie, from, mode]);".data

/-- The generated `initial_config` fragment of step 5 (an f-string in the
source; the holes are filled from the effect key and the rule record). -/
def initial_config_frag (effect_key : List Char) (c : EffectConfig) : List Char :=
  "\n  \n  // Compute initial ".data ++ effect_key ++
  " config (used by Movie".data ++ c.effect_name ++
  "Player)\n  const initial".data ++ c.effect_name ++
  "Config: ".data ++ c.config_type ++
  (" = useMemo(() => \x7b\n    const baseConfig = movie?.effect_config || ").data ++ c.default_config ++
  (";\n    return \x7b\n      ...baseConfig,\n      preserveControls: true,\n    \x7d;\n  \x7d, [movie]);\n\n  // Handle ").data ++ c.effect_name ++
  ("Effect completion (replaces setOnComplete)\n  const handleEffectComplete = () => \x7b\n    const currentRecordingState = recordingStatusRef.current.state;\n    console.log(\x27🎬 ").data ++ c.effect_name ++
  (" effect completed. Recording state:\x27, currentRecordingState);\n    setIsPlaying(false);\n    \n    // Capture thumbnail when effect completes (if not already captured)\n    if (!thumbnailBlob && canvas && mode !== \x27view\x27) \x7b\n      requestAnimationFrame(() => requestAnimationFrame(() => \x7b\n        import(\x27../../services/thumbnailService\x27).then((\x7b captureCanvasScreenshot \x7d) => \x7b\n          captureCanvasScreenshot(canvas).then(blob => \x7b\n            setThumbnailBlob(blob);\n          \x7d).catch(err => \x7b\n            console.error(\x27❌ Failed to capture thumbnail:\x27, err);\n          \x7d);\n        \x7d);\n      \x7d));\n    \x7d\n    \n    // If recording, stop it and trigger download\n    if (currentRecordingState === \x27recording\x27) \x7b\n      console.log(\x27🎬 Effect complete during recording - stopping recording...\x27);\n      handleStopRecordingAndDownload();\n    \x7d else \x7b\n      // Show appropriate post-playback modal after 3 second delay\n      setTimeout(() => \x7b\n        if (from === \x27gallery\x27) \x7b\n          setShowWhatsNext(true);\n        \x7d else if (from === \x27share\x27) \x7b\n          setShowShareWelcome(true);\n        \x7d else if (movie) \x7b\n          // Viewing a saved movie directly - show What\x27s Next\n          setShowWhatsNext(true);\n        \x7d else if (mode === \x27create\x27) \x7b\n          // Creating a new movie from manual solver - go directly to What\x27s Next\n          setShowWhatsNext(true);\n        \x7d\n      \x7d, 3000);\n    \x7d\n  \x7d;\n").data

/-- Step 5: insert the generated fragment after every occurrence of the
marker (Python `str.replace` replaces globally), guarded by `in`. -/
def step5 (effect_key : List Char) (c : EffectConfig) (content : List Char) : List Char :=
  if containsB insert_marker content then
    replaceAll insert_marker (insert_marker ++ initial_config_frag effect_key c) content
  else content

/-- The canvas boundary marker of step 6. -/
def canvas_marker : List Char :=
  "        )\x7d\n        \n        \x7b/* Reveal / Explosion Sliders".data

/-- The generated headless-controller JSX of step 6 (built by string
concatenation in the source; it ends with the canvas marker itself, so the
insertion is pre-marker). -/
def controller_jsx (effect_key : List Char) (c : EffectConfig) : List Char :=
  "        )\x7d\n\n        \x7b/* Headless ".data ++ effect_key ++
  (" controller (no visual) */\x7d\n        \x7beffectContext && (\n          <Movie").data ++ c.effect_name ++
  ("Player\n            ref=\x7b").data ++ c.ref_name ++
  ("\x7d\n            effectContext=\x7beffectContext\x7d\n            baseConfig=\x7binitial").data ++ c.effect_name ++
  ("Config\x7d\n            autoplay=\x7bautoplay\x7d\n            loop=\x7bfalse\x7d\n            onComplete=\x7bhandleEffectComplete\x7d\n          />\n        )\x7d\n        \n        \x7b/* Reveal / Explosion Sliders").data

/-- The controller JSX without its trailing canvas marker:
`controller_jsx ek c = jsxHead ek c ++ canvas_marker` (the generated block
is inserted BEFORE the marker, which is preserved as the tail). -/
def jsxHead (effect_key : List Char) (c : EffectConfig) : List Char :=
  "        )\x7d\n\n        \x7b/* Headless ".data ++ effect_key ++
  (" controller (no visual) */\x7d\n        \x7beffectContext && (\n          <Movie").data ++ c.effect_name ++
  ("Player\n            ref=\x7b").data ++ c.ref_name ++
  ("\x7d\n            effectContext=\x7beffectContext\x7d\n            baseConfig=\x7binitial").data ++ c.effect_name ++
  ("Config\x7d\n            autoplay=\x7bautoplay\x7d\n            loop=\x7bfalse\x7d\n            onComplete=\x7bhandleEffectComplete\x7d\n          />\n").data

/-- Step 6: insert the controller JSX before every occurrence of the canvas
marker (again a global `str.replace`, with the marker kept as the tail of
the replacement). -/
def step6 (effect_key : List Char) (c : EffectConfig) (content : List Char) : List Char :=
  if containsB canvas_marker content then
    replaceAll canvas_marker (controller_jsx effect_key c) content
  else content

/-- The pure content transformation of `refactor_file`: steps 1-6 in order. -/
def refactor_content (k : EffectKey) (content : List Char) : List Char :=
  step6 (keyName k) (EFFECTS k)
    (step5 (keyName k) (EFFECTS k)
      (step4 (step3 (EFFECTS k) (step2 (EFFECTS k) (step1 (EFFECTS k) content)))))

/-- Model of `refactor_file` with the file system modelled as a map from paths to
optional contents: a missing file aborts with `False`; otherwise the
content is transformed and written back only when it changed (the write is
a single atomic replacement of the content at that path). -/
def refactor_file (fs : String → Option (List Char)) (filepath : String) (k : EffectKey) :
    Bool × (String → Option (List Char)) :=
  match fs filepath with
  | none => (false, fs)
  | some content =>
    let newContent := refactor_content k content
    if newContent = content then (false, fs)
    else (true, fun p => if p = filepath then some newContent else fs p)

/-- The driver loop of `main`: process every target in order, collecting
one `(filename, success)` result per target for the summary. -/
def run_driver (fs : String → Option (List Char)) :
    List (String × EffectKey) → List (String × Bool) × (String → Option (List Char))
  | [] => ([], fs)
  | (p, k) :: rest =>
    let r := refactor_file fs p k
    let rr := run_driver r.2 rest
    ((p, r.1) :: rr.1, rr.2)

/-!
Embedding of `remove-movie-code.py`. -/

/-- The hard-coded `DELETE_RANGES` list: `(start, end, description)`,
1-indexed and inclusive. -/
def DELETE_RANGES : List (Nat × Nat × String) :=
  [ (14, 14, "getMovieById import"),
    (20, 30, "Movie Mode imports block"),
    (33, 36, "Movie type imports"),
    (3, 3, "createPortal import"),
    (58, 62, "Movie playback state"),
    (141, 185, "Movie Mode state variables"),
    (546, 726, "Load movie from URL"),
    (728, 747, "Detect shared link"),
    (1829, 1849, "Build effect context"),
    (1851, 1875, "Auto-activate effect"),
    (2275, 2296, "Tick loop for effects"),
    (2298, 2370, "Auto-play gallery movie"),
    (2371, 2445, "Sync auto-solution to movie mode"),
    (2446, 2457, "Save original state"),
    (2459, 2531, "Set onComplete callback"),
    (2533, 2546, "Cleanup on mode switch"),
    (2548, 2560, "Close effects dropdown"),
    (2025, 2273, "Effect handlers and credits handlers"),
    (1877, 2023, "Effect activation/clear/select handlers"),
    (3333, 3398, "CreditsModal and ChallengeOverlay JSX") ]

/-- Membership of the 0-indexed line `i` in the deletion set built from the
ranges: Python adds every index of `range(start - 1, end)` to a set, so `i`
is deleted iff some range has `start - 1 ≤ i < end` (over `Int`, matching
Python arithmetic). -/
def in_delete_set (ranges : List (Nat × Nat × String)) (i : Nat) : Bool :=
  ranges.any fun r => decide ((r.1 : Int) - 1 ≤ (i : Int) ∧ (i : Int) < (r.2.1 : Int))

/-- The filtering comprehension
`[line for i, line in enumerate(lines) if i not in lines_to_delete]`,
written with an explicit running index. -/
def kept_from (P : Nat → Bool) : Nat → List α → List α
  | _, [] => []
  | i, l :: rest =>
    if P i then kept_from P (i + 1) rest else l :: kept_from P (i + 1) rest

/-- The core of the deletion engine: retain every line whose 0-index is not in
the deletion set, preserving order. -/
def kept_lines (ranges : List (Nat × Nat × String)) (lines : List α) : List α :=
  kept_from (in_delete_set ranges) 0 lines

/-- Model of `f.readlines()`: split the content into lines, keeping the
trailing newline of each line. -/
def readlinesAux (cur : List Char) : List Char → List (List Char)
  | [] => if cur.isEmpty then [] else [cur.reverse]
  | c :: rest =>
    if c = '\n' then ((c :: cur).reverse) :: readlinesAux [] rest
    else readlinesAux (c :: cur) rest

/-- Wrapper of the line splitter on a whole content. -/
def readlines (s : List Char) : List (List Char) := readlinesAux [] s

/-- The hard-coded input path of `remove-movie-code.py`. -/
def input_file : String :=
  "c:\\Projects\\Koos puzzle v1\\src\\pages\\solve\\SolvePage.tsx"

/-- The hard-coded output path (a sibling with the `.cleaned` suffix). -/
def output_file : String :=
  "c:\\Projects\\Koos puzzle v1\\src\\pages\\solve\\SolvePage.tsx.cleaned"

/-- Model of `main` of `remove-movie-code.py` on a modelled file system: read the
input, filter its lines through the deletion set, and write the result to
the output path.  (On a missing input Python raises before any write, so
the file system is returned unchanged.) -/
def deletion_main (fs : String → Option (List Char)) : String → Option (List Char) :=
  match fs input_file with
  | none => fs
  | some content =>
    fun p =>
      if p = output_file then
        some (List.flatten (kept_lines DELETE_RANGES (readlines content)))
      else fs p

/-!
Concrete documents and file systems used by the claim counterexamples and
witnesses. -/

/-- A document already migrated once by the turntable rule: the result of
transforming a document that consisted of the canvas marker alone. -/
def migratedCanvasDoc : List Char := refactor_content EffectKey.turntable canvas_marker

/-- A file system holding only that already-migrated document. -/
def c1fs : String → Option (List Char) :=
  fun p => if p = "TurntableMoviePage.tsx" then some migratedCanvasDoc else none

/-- A document with exactly three legacy optional-chaining accesses and one
legacy `play()` call. -/
def c6doc : List Char :=
  ("activeEffectInstance?.a activeEffectInstance?.b activeEffectInstance?.c activeEffectInstance.play()").data

/-- A document with exactly three legacy optional-chaining accesses and no
other anchor of any step. -/
def c6wdoc : List Char :=
  ("activeEffectInstance?.a activeEffectInstance?.b activeEffectInstance?.c").data

/-- A one-file file system whose content no transformation step touches. -/
def c4fs : String → Option (List Char) :=
  fun p => if p = "TurntableMoviePage.tsx" then some "x".data else none

/-- The ranges of the C3 deletion scenario. -/
def c3ranges : List (Nat × Nat × String) := [(10, 12, "r1"), (12, 15, "r2")]

/-- The out-of-bounds range of the C5 deletion scenario. -/
def c5ranges : List (Nat × Nat × String) := [(95, 200, "r")]

/-- The same range clipped to the 100-line document. -/
def c5clipped : List (Nat × Nat × String) := [(95, 100, "r")]

/-!
Structural lemmas about prefixes and infixes of character lists. -/

theorem infx_of_pref {x y : List Char} (h : x <+: y) : x <:+: y := by
  obtain ⟨t, ht⟩ := h
  exact ⟨[], t, by simpa using ht⟩

theorem infx_of_sfx {x y : List Char} (h : x <:+ y) : x <:+: y := by
  obtain ⟨s, hs⟩ := h
  exact ⟨s, [], by simpa using hs⟩

theorem infx_cons_lift {x t : List Char} {c : Char} (h : x <:+: t) : x <:+: c :: t := by
  obtain ⟨s, u, hsu⟩ := h
  exact ⟨c :: s, u, by simp [hsu]⟩

theorem infx_drop {x s : List Char} (n : Nat) (h : x <:+: List.drop n s) : x <:+: s :=
  List.IsInfix.trans h (infx_of_sfx (List.drop_suffix n s))

theorem sfx_cons_lift {x t : List Char} {c : Char} (h : x <:+ t) : x <:+ c :: t := by
  obtain ⟨s, hs⟩ := h
  exact ⟨c :: s, by simp [hs]⟩

theorem infxConsSplit {x t : List Char} {c : Char} (h : x <:+: c :: t) :
    x <+: (c :: t) ∨ x <:+: t := by
  obtain ⟨s, u, hsu⟩ := h
  cases s with
  | nil => exact Or.inl ⟨u, by simpa using hsu⟩
  | cons y ys =>
    injection hsu with h1 h2
    exact Or.inr ⟨ys, u, h2⟩

theorem prefComparable : ∀ {z x y : List Char}, x <+: z → y <+: z → x <+: y ∨ y <+: x := by
  intro z
  induction z with
  | nil =>
    intro x y h1 _
    rw [ List.prefix_nil] at h1
    subst h1
    exact Or.inl ( List.nil_prefix)
  | cons c zs ih =>
    intro x y h1 h2
    cases x with
    | nil => exact Or.inl ( List.nil_prefix)
    | cons a as =>
      cases y with
      | nil => exact Or.inr ( List.nil_prefix)
      | cons b bs =>
        obtain ⟨hac, has⟩ := List.cons_prefix_cons.mp h1
        obtain ⟨hbc, hbs⟩ := List.cons_prefix_cons.mp h2
        subst hac; subst hbc
        rcases ih has hbs with h | h
        · exact Or.inl ( List.cons_prefix_cons.mpr ⟨rfl, h⟩)
        · exact Or.inr ( List.cons_prefix_cons.mpr ⟨rfl, h⟩)

theorem prefAppendCases {x u v : List Char} (h : x <+: u ++ v) :
    x <+: u ∨ (u <+: x ∧ List.drop u.length x <+: v) := by
  rcases prefComparable h ( List.prefix_append u v) with hxu | hux
  · exact Or.inl hxu
  · refine Or.inr ⟨hux, ?_⟩
    obtain ⟨w, rfl⟩ := hux
    rw [List.drop_left]
    obtain ⟨t, ht⟩ := h
    rw [List.append_assoc] at ht
    exact ⟨t, List.append_cancel_left ht⟩

theorem infxAppendSplit :
    ∀ (u : List Char) {v x : List Char}, x <:+: u ++ v →
      x <:+: u ∨ x <:+: v ∨
        ∃ k, 0 < k ∧ k < x.length ∧ (List.take k x) <:+ u ∧ (List.drop k x) <+: v := by
  intro u
  induction u with
  | nil =>
    intro v x h
    exact Or.inr (Or.inl (by simpa using h))
  | cons c u' ih =>
    intro v x h
    rcases infxConsSplit (by simpa using h) with hp | hi
    · rcases prefAppendCases (x := x) (u := c :: u') (v := v) (by simpa using hp) with hxu | ⟨hux, hdrop⟩
      · exact Or.inl (infx_of_pref hxu)
      · by_cases hk : (c :: u').length < x.length
        · refine Or.inr (Or.inr ⟨(c :: u').length, by simp, hk, ?_, hdrop⟩)
          obtain ⟨w, rfl⟩ := hux
          rw [List.take_left]
        · have hlen : (c :: u').length = x.length := by
            have hle1 : (c :: u').length ≤ x.length := hux.length_le
            have hle2 : x.length ≤ (c :: u').length := Nat.le_of_not_lt hk
            omega
          have hx : x = c :: u' := (List.IsPrefix.eq_of_length hux hlen).symm
          subst hx
          exact Or.inl (infx_of_pref ( List.prefix_refl _))
    · rcases ih hi with h1 | h1 | ⟨k, hk0, hkl, hkt, hkd⟩
      · exact Or.inl (infx_cons_lift h1)
      · exact Or.inr (Or.inl h1)
      · exact Or.inr (Or.inr ⟨k, hk0, hkl, sfx_cons_lift hkt, hkd⟩)

/-!
Behaviour of `replaceAll` and `countOccs`: identity on anchor-free content,
introduction of the replacement, preservation and counting lemmas. -/

/-- If the pattern occurs nowhere, `str.replace` is the identity. -/
theorem replaceAll_id (pat repl : List Char) :
    ∀ s, ¬ pat <:+: s → replaceAll pat repl s = s := by
  intro s
  induction s with
  | nil => intro _; rfl
  | cons c rest ih =>
    intro h
    have hng : ¬ (pat ≠ [] ∧ pat <+: (c :: rest)) := by
      rintro ⟨_, hp⟩
      exact h (infx_of_pref hp)
    rw [replaceAll_cons_neg repl hng, ih]
    intro hr
    exact h (infx_cons_lift hr)

/-- If the pattern occurs somewhere, the replacement occurs in the output. -/
theorem replaceAll_contains (pat repl : List Char) (hpat : pat ≠ []) :
    ∀ s, pat <:+: s → repl <:+: replaceAll pat repl s := by
  intro s
  induction s with
  | nil =>
    intro h
    obtain ⟨u, v, huv⟩ := h
    have h1 := (List.append_eq_nil.mp huv).1
    exact absurd (List.append_eq_nil.mp h1).2 hpat
  | cons c rest ih =>
    intro h
    by_cases hp : pat <+: (c :: rest)
    · rw [replaceAll_cons_pos repl hpat hp]
      exact infx_of_pref ( List.prefix_append _ _)
    · have hng : ¬ (pat ≠ [] ∧ pat <+: (c :: rest)) := fun hcon => hp hcon.2
      rw [replaceAll_cons_neg repl hng]
      rcases infxConsSplit h with h1 | h1
      · exact absurd h1 hp
      · exact infx_cons_lift (ih h1)

/-- The scan count is zero on pattern-free content. -/
theorem countOccs_zero (pat : List Char) :
    ∀ s, ¬ pat <:+: s → countOccs pat s = 0 := by
  intro s
  induction s with
  | nil => intro _; rfl
  | cons c rest ih =>
    intro h
    have hng : ¬ (pat ≠ [] ∧ pat <+: (c :: rest)) := by
      rintro ⟨_, hp⟩
      exact h (infx_of_pref hp)
    rw [countOccs_cons_neg hng]
    exact ih fun hr => h (infx_cons_lift hr)

/-- A match at the head is counted once and the scan resumes right after. -/
theorem countOccs_self_append (q z : List Char) (hq : q ≠ []) :
    countOccs q (q ++ z) = 1 + countOccs q z := by
  cases q with
  | nil => exact absurd rfl hq
  | cons a q' =>
    have hp : (a :: q') <+: ((a :: q') ++ z) := List.prefix_append _ _
    have := @countOccs_cons_pos (a :: q') a (q' ++ z) (by simp) (by simp)
    rw [show a :: (q' ++ z) = (a :: q') ++ z by simp] at this
    rw [this, List.drop_left]

/-- Prefix tracking: under the overlap-freeness conditions `hc`, a proper
nonempty tail of `x` that prefixes the transformed content already
prefixed the original content. -/
theorem prefTrack (pat repl x : List Char)
    (hc : ∀ j, 1 ≤ j → j < x.length →
      ¬ (List.drop j x <+: repl) ∧ ¬ (repl <+: List.drop j x)) :
    ∀ s j, 1 ≤ j → j < x.length → List.drop j x <+: replaceAll pat repl s →
      List.drop j x <+: s := by
  intro s
  induction s with
  | nil =>
    intro j h1 hl hp
    have h0 : replaceAll pat repl [] = [] := rfl
    rw [h0] at hp
    have hnil : List.drop j x = [] := List.prefix_nil.mp hp
    have hlen := congrArg List.length hnil
    simp only [List.length_drop, List.length_nil] at hlen
    omega
  | cons c rest ih =>
    intro j h1 hl hp
    by_cases hm : pat ≠ [] ∧ pat <+: (c :: rest)
    · rw [replaceAll_cons_pos repl hm.1 hm.2] at hp
      rcases prefComparable hp ( List.prefix_append repl _) with hdr | hrd
      · exact absurd hdr (hc j h1 hl).1
      · exact absurd hrd (hc j h1 hl).2
    · rw [replaceAll_cons_neg repl hm] at hp
      have hxj : List.drop j x = x[j] :: List.drop (j + 1) x := List.drop_eq_getElem_cons hl
      rw [hxj] at hp ⊢
      obtain ⟨hcj, hrest⟩ := List.cons_prefix_cons.mp hp
      by_cases hj1 : j + 1 < x.length
      · exact List.cons_prefix_cons.mpr ⟨hcj, ih (j + 1) (by omega) hj1 hrest⟩
      · have hdj : List.drop (j + 1) x = [] := List.drop_eq_nil_of_le (by omega)
        rw [hdj]
        exact List.cons_prefix_cons.mpr ⟨hcj, List.nil_prefix⟩

/-- No new occurrence of `x` is created by the replacement, provided `x`
does not occur inside the replacement, no proper prefix of `x` ends the
replacement, no proper tail of `x` overlaps the replacement, and `x`
either begins with the pattern or did not occur in the input. -/
theorem noIntro (pat repl x : List Char) (hpat : pat ≠ []) (hx : x ≠ [])
    (ha : ¬ x <:+: repl)
    (hb : ∀ k, 0 < k → k < x.length → ¬ (List.take k x <:+ repl))
    (hc : ∀ j, 1 ≤ j → j < x.length →
      ¬ (List.drop j x <+: repl) ∧ ¬ (repl <+: List.drop j x)) :
    ∀ s, (pat <+: x ∨ ¬ x <:+: s) → ¬ x <:+: replaceAll pat repl s := by
  have hnilcase : ¬ x <:+: ([] : List Char) := by
    intro hinf
    obtain ⟨u, v, huv⟩ := hinf
    have h1 := (List.append_eq_nil.mp huv).1
    exact hx (List.append_eq_nil.mp h1).2
  have main : ∀ n s, s.length ≤ n → (pat <+: x ∨ ¬ x <:+: s) →
      ¬ x <:+: replaceAll pat repl s := by
    intro n
    induction n with
    | zero =>
      intro s hs _
      have hnil : s = [] := by
        cases s with
        | nil => rfl
        | cons a t => simp at hs
      subst hnil
      exact hnilcase
    | succ m ih =>
      intro s hs hd
      cases s with
      | nil => exact hnilcase
      | cons c rest =>
        have hp1 : 1 ≤ pat.length := by
          cases pat with
          | nil => exact absurd rfl hpat
          | cons a l => simp
        by_cases hm : pat ≠ [] ∧ pat <+: (c :: rest)
        · rw [replaceAll_cons_pos repl hm.1 hm.2]
          intro hinf
          rcases infxAppendSplit repl hinf with h1 | h1 | ⟨k, hk0, hkl, hkt, _⟩
          · exact ha h1
          · refine ih (List.drop pat.length (c :: rest)) ?_ ?_ h1
            · simp only [List.length_drop, List.length_cons]
              simp only [List.length_cons] at hs
              omega
            · rcases hd with hd | hd
              · exact Or.inl hd
              · exact Or.inr fun hcon => hd (infx_drop _ hcon)
          · exact hb k hk0 hkl hkt
        · rw [replaceAll_cons_neg repl hm]
          intro hinf
          rcases infxConsSplit hinf with h1 | h1
          · cases x with
            | nil => exact hx rfl
            | cons a x' =>
              obtain ⟨hac, hx'⟩ := List.cons_prefix_cons.mp h1
              subst hac
              have hxpre : (a :: x') <+: (a :: rest) := by
                cases x' with
                | nil => exact List.cons_prefix_cons.mpr ⟨rfl, List.nil_prefix⟩
                | cons b x'' =>
                  have hlt : 1 < (a :: b :: x'').length := by simp
                  have hdrop1 : List.drop 1 (a :: b :: x'') = b :: x'' := rfl
                  have := prefTrack pat repl (a :: b :: x'') hc rest 1 (le_refl 1) hlt
                    (by rw [hdrop1]; exact hx')
                  rw [hdrop1] at this
                  exact List.cons_prefix_cons.mpr ⟨rfl, this⟩
              rcases hd with hd | hd
              · exact hm ⟨hpat, hd.trans hxpre⟩
              · exact hd (infx_of_pref hxpre)
          · refine ih rest ?_ ?_ h1
            · simp only [List.length_cons] at hs
              omega
            · rcases hd with hd | hd
              · exact Or.inl hd
              · exact Or.inr fun hcon => hd (infx_cons_lift hcon)
  intro s hd
  exact main s.length s (le_refl _) hd

/-- Scanning past a block that neither contains `q` nor ends with a proper
prefix of `q` counts nothing extra. -/
theorem countSkip (q : List Char) (hq : q ≠ []) :
    ∀ f, ¬ q <:+: f → (∀ k, 0 < k → k < q.length → ¬ (List.take k q <:+ f)) →
      ∀ y, countOccs q (f ++ y) = countOccs q y := by
  intro f
  induction f with
  | nil => intro _ _ y; simp
  | cons c f' ih =>
    intro h1 h2 y
    have hnp : ¬ q <+: ((c :: f') ++ y) := by
      intro hp
      rcases prefAppendCases hp with hqa | ⟨haq, _⟩
      · exact h1 (infx_of_pref hqa)
      · by_cases hk : (c :: f').length < q.length
        · apply h2 (c :: f').length (by simp) hk
          obtain ⟨w, rfl⟩ := haq
          rw [List.take_left]
        · have hlen : (c :: f').length = q.length := by
            have hle1 : (c :: f').length ≤ q.length := haq.length_le
            omega
          have hx : q = c :: f' := (List.IsPrefix.eq_of_length haq hlen).symm
          exact h1 (hx ▸ List.infix_refl q)
    have hstep : countOccs q ((c :: f') ++ y) = countOccs q (f' ++ y) := by
      have hform : (c :: f') ++ y = c :: (f' ++ y) := rfl
      rw [hform]
      exact countOccs_cons_neg fun hcon => hnp (by rw [hform]; exact hcon.2)
    rw [hstep]
    exact ih (fun hcon => h1 (infx_cons_lift hcon))
      (fun k hk0 hkl hcon => h2 k hk0 hkl (sfx_cons_lift hcon)) y

/-- Occurrence transfer: when the replacement decomposes as
`fpart ++ q ++ tpart` with `q` overlap-free against both parts and against
the whole replacement, every scan match of `pat` contributes exactly one
occurrence of `q` to the output, and no other occurrence of `q` exists. -/
theorem countQ (pat repl q fpart tpart : List Char) (hpat : pat ≠ []) (hq : q ≠ [])
    (hrepl : repl = fpart ++ (q ++ tpart))
    (hf1 : ¬ q <:+: fpart) (hf2 : ∀ k, 0 < k → k < q.length → ¬ (List.take k q <:+ fpart))
    (ht1 : ¬ q <:+: tpart) (ht2 : ∀ k, 0 < k → k < q.length → ¬ (List.take k q <:+ tpart))
    (hc : ∀ j, 1 ≤ j → j < q.length →
      ¬ (List.drop j q <+: repl) ∧ ¬ (repl <+: List.drop j q)) :
    ∀ s, (pat <+: q ∨ ¬ q <:+: s) →
      countOccs q (replaceAll pat repl s) = countOccs pat s := by
  have main : ∀ n s, s.length ≤ n → (pat <+: q ∨ ¬ q <:+: s) →
      countOccs q (replaceAll pat repl s) = countOccs pat s := by
    intro n
    induction n with
    | zero =>
      intro s hs _
      have hnil : s = [] := by
        cases s with
        | nil => rfl
        | cons a t => simp at hs
      subst hnil
      rfl
    | succ m ih =>
      intro s hs hd
      cases s with
      | nil => rfl
      | cons c rest =>
        have hp1 : 1 ≤ pat.length := by
          cases pat with
          | nil => exact absurd rfl hpat
          | cons a l => simp
        by_cases hm : pat ≠ [] ∧ pat <+: (c :: rest)
        · rw [replaceAll_cons_pos repl hm.1 hm.2, countOccs_cons_pos hm.1 hm.2]
          nth_rewrite 1 [hrepl]
          rw [List.append_assoc, countSkip q hq fpart hf1 hf2, List.append_assoc,
            countOccs_self_append _ _ hq, countSkip q hq tpart ht1 ht2]
          congr 1
          refine ih (List.drop pat.length (c :: rest)) ?_ ?_
          · simp only [List.length_drop, List.length_cons]
            simp only [List.length_cons] at hs
            omega
          · rcases hd with hd | hd
            · exact Or.inl hd
            · exact Or.inr fun hcon => hd (infx_drop _ hcon)
        · rw [replaceAll_cons_neg repl hm, countOccs_cons_neg hm]
          have hnq : ¬ (q ≠ [] ∧ q <+: (c :: replaceAll pat repl rest)) := by
            rintro ⟨_, hqp⟩
            cases q with
            | nil => exact hq rfl
            | cons a q' =>
              obtain ⟨hac, hq'⟩ := List.cons_prefix_cons.mp hqp
              subst hac
              have hqpre : (a :: q') <+: (a :: rest) := by
                cases q' with
                | nil => exact List.cons_prefix_cons.mpr ⟨rfl, List.nil_prefix⟩
                | cons b q'' =>
                  have hlt : 1 < (a :: b :: q'').length := by simp
                  have hdrop1 : List.drop 1 (a :: b :: q'') = b :: q'' := rfl
                  have := prefTrack pat repl (a :: b :: q'') hc rest 1 (le_refl 1) hlt
                    (by rw [hdrop1]; exact hq')
                  rw [hdrop1] at this
                  exact List.cons_prefix_cons.mpr ⟨rfl, this⟩
              rcases hd with hd | hd
              · exact hm ⟨hpat, hd.trans hqpre⟩
              · exact hd (infx_of_pref hqpre)
          rw [countOccs_cons_neg hnq]
          refine ih rest ?_ ?_
          · simp only [List.length_cons] at hs
            omega
          · rcases hd with hd | hd
            · exact Or.inl hd
            · exact Or.inr fun hcon => hd (infx_cons_lift hcon)
  intro s hd
  exact main s.length s (le_refl _) hd

/-!
Executable checkers for the side conditions of `noIntro` and `countQ`,
with soundness bridges.  They are tail recursive so that the kernel can
evaluate them on the long generated fragments. -/

theorem not_infx_of_containsB {pat y : List Char} (h : containsB pat y = false) :
    ¬ pat <:+: y := by
  intro hc
  rw [containsB_iff.mpr hc] at h
  cases h

/-- No nonempty suffix of `f` is a proper prefix of `x` (checker for the
`take`-condition of `noIntro`/`countSkip`). -/
def noStradB (x : List Char) : List Char → Bool
  | [] => true
  | c :: rest => (!(pfxB (c :: rest) x && !(pfxB x (c :: rest)))) && noStradB x rest

theorem noStradB_sound (x : List Char) :
    ∀ f, noStradB x f = true →
      ∀ k, 0 < k → k < x.length → ¬ (List.take k x <:+ f) := by
  intro f
  induction f with
  | nil =>
    intro _ k hk0 hkl hsfx
    have hnil : List.take k x = [] := List.suffix_nil.mp hsfx
    have := congrArg List.length hnil
    simp only [List.length_take, List.length_nil] at this
    omega
  | cons c f' ih =>
    intro h k hk0 hkl hsfx
    rw [noStradB, Bool.and_eq_true] at h
    obtain ⟨s, hs⟩ := hsfx
    cases s with
    | nil =>
      simp only [List.nil_append] at hs
      have hpx : pfxB (c :: f') x = true := by
        rw [pfxB_iff, ← hs]
        exact List.take_prefix k x
      have hxp : pfxB x (c :: f') = false := by
        cases hxb : pfxB x (c :: f') with
        | false => rfl
        | true =>
          have hle := (pfxB_iff.mp hxb).length_le
          rw [← hs] at hle
          simp only [List.length_take] at hle
          omega
      rw [hpx, hxp] at h
      simp at h
    | cons a s' =>
      injection hs with h1 h2
      exact ih h.2 k hk0 hkl ⟨s', h2⟩

/-- No proper nonempty tail of `x` overlaps `repl` in either direction
(checker for the `drop`-condition of `prefTrack`). -/
def noBorderB (repl : List Char) : List Char → Bool
  | [] => true
  | [_] => true
  | _ :: c :: rest =>
    (!(pfxB (c :: rest) repl) && !(pfxB repl (c :: rest))) && noBorderB repl (c :: rest)

theorem noBorderB_sound (repl : List Char) :
    ∀ x, noBorderB repl x = true →
      ∀ j, 1 ≤ j → j < x.length →
        ¬ (List.drop j x <+: repl) ∧ ¬ (repl <+: List.drop j x) := by
  intro x
  induction x with
  | nil => intro _ j h1 hl; simp at hl
  | cons a y ih =>
    intro h j h1 hl
    cases y with
    | nil => simp at hl; omega
    | cons b rest =>
      rw [noBorderB, Bool.and_eq_true, Bool.and_eq_true] at h
      obtain ⟨⟨hp1, hp2⟩, hrec⟩ := h
      obtain ⟨jp, rfl⟩ : ∃ jp, j = jp + 1 := ⟨j - 1, by omega⟩
      rw [List.drop_succ_cons]
      cases jp with
      | zero =>
        rw [List.drop_zero]
        constructor
        · intro hcon
          rw [pfxB_iff.mpr hcon] at hp1
          cases hp1
        · intro hcon
          rw [pfxB_iff.mpr hcon] at hp2
          cases hp2
      | succ jq =>
        exact ih hrec (jq + 1) (by omega) (by simp at hl ⊢; omega)

/-!
The deletion engine on a contiguous band of 0-indexed positions. -/

theorem kept_from_band {α : Type} (P : Nat → Bool) (a b : Nat) (hab : a ≤ b)
    (hP : ∀ i, P i = true ↔ a ≤ i ∧ i < b) :
    ∀ (lines : List α) (j : Nat),
      kept_from P j lines = List.take (a - j) lines ++ List.drop (b - j) lines := by
  intro lines
  induction lines with
  | nil => intro j; simp [kept_from]
  | cons l rest ih =>
    intro j
    by_cases hPj : P j = true
    · have hj := (hP j).mp hPj
      simp only [kept_from, if_pos hPj]
      rw [ih (j + 1)]
      have ha0 : a - j = 0 := by omega
      have ha1 : a - (j + 1) = 0 := by omega
      have hb0 : b - j = (b - (j + 1)) + 1 := by omega
      rw [ha0, ha1, hb0, List.drop_succ_cons]
      simp
    · have hj : ¬ (a ≤ j ∧ j < b) := fun hcon => hPj ((hP j).mpr hcon)
      simp only [kept_from, if_neg hPj]
      rw [ih (j + 1)]
      by_cases hja : j < a
      · have ha0 : a - j = (a - (j + 1)) + 1 := by omega
        have hb0 : b - j = (b - (j + 1)) + 1 := by omega
        rw [ha0, hb0, List.take_succ_cons, List.drop_succ_cons]
        simp
      · have ha0 : a - j = 0 := by omega
        have hb0 : b - j = 0 := by omega
        have ha1 : a - (j + 1) = 0 := by omega
        have hb1 : b - (j + 1) = 0 := by omega
        rw [ha0, hb0, ha1, hb1]
        simp

theorem c3ranges_band : ∀ i, in_delete_set c3ranges i = true ↔ 9 ≤ i ∧ i < 15 := by
  intro i
  simp only [in_delete_set, c3ranges, List.any_cons, List.any_nil, Bool.or_eq_true,
    decide_eq_true_eq, Bool.or_false]
  omega

theorem c5ranges_band : ∀ i, in_delete_set c5ranges i = true ↔ 94 ≤ i ∧ i < 200 := by
  intro i
  simp only [in_delete_set, c5ranges, List.any_cons, List.any_nil, Bool.or_eq_true,
    decide_eq_true_eq, Bool.or_false]
  omega

theorem c5clipped_band : ∀ i, in_delete_set c5clipped i = true ↔ 94 ≤ i ∧ i < 100 := by
  intro i
  simp only [in_delete_set, c5clipped, List.any_cons, List.any_nil, Bool.or_eq_true,
    decide_eq_true_eq, Bool.or_false]
  omega

/-- Claim C3: on a 100-line document with ranges `[(10,12), (12,15)]` the
deletion engine outputs exactly 94 lines; the union of the two inclusive
ranges (lines 10-15, 1-indexed) is removed exactly once with the overlap at
line 12 deduplicated, the remaining lines keep their original relative
order (the output is `take 9 ++ drop 15`), and the line that was line 9 is
immediately followed by the line that was line 16. -/
theorem C3_deletion_union {α : Type} (lines : List α) (h : lines.length = 100) :
    kept_lines c3ranges lines = List.take 9 lines ++ List.drop 15 lines ∧
    (kept_lines c3ranges lines).length = 94 ∧
    (kept_lines c3ranges lines)[8]? = lines[8]? ∧
    (kept_lines c3ranges lines)[9]? = lines[15]? := by
  have heq : kept_lines c3ranges lines = List.take 9 lines ++ List.drop 15 lines := by
    have hb := kept_from_band (in_delete_set c3ranges) 9 15 (by omega) c3ranges_band lines 0
    simpa [kept_lines] using hb
  have hlt : (List.take 9 lines).length = 9 := by
    rw [List.length_take]
    omega
  refine ⟨heq, ?_, ?_, ?_⟩
  · rw [heq]
    rw [List.length_append, hlt, List.length_drop, h]
  · rw [heq, List.getElem?_append, hlt, if_pos (by omega), List.getElem?_take,
      if_pos (by omega)]
  · rw [heq, List.getElem?_append, hlt, if_neg (by omega)]
    rw [show 9 - 9 = 0 from rfl, List.getElem?_drop]

/-- Witness for C3 at the concrete 100-line document `List.range 100`. -/
theorem C3_deletion_union_witness :
    (List.range 100).length = 100 ∧
    (kept_lines c3ranges (List.range 100) =
        List.take 9 (List.range 100) ++ List.drop 15 (List.range 100) ∧
      (kept_lines c3ranges (List.range 100)).length = 94 ∧
      (kept_lines c3ranges (List.range 100))[8]? = (List.range 100)[8]? ∧
      (kept_lines c3ranges (List.range 100))[9]? = (List.range 100)[15]?) :=
  ⟨by simp, C3_deletion_union (List.range 100) (by simp)⟩

/-- Claim C5: a range `(95, 200)` whose upper bound exceeds the 100-line
document removes only the in-bounds lines 95-100, raises no error (the
engine is a total function), and the out-of-bounds indices have no effect:
the output equals both `take 94` and the output for the clipped range
`(95, 100)`. -/
theorem C5_deletion_oob {α : Type} (lines : List α) (h : lines.length = 100) :
    kept_lines c5ranges lines = List.take 94 lines ∧
    kept_lines c5ranges lines = kept_lines c5clipped lines := by
  have h1 : kept_lines c5ranges lines = List.take 94 lines ++ List.drop 200 lines := by
    have hb := kept_from_band (in_delete_set c5ranges) 94 200 (by omega) c5ranges_band lines 0
    simpa [kept_lines] using hb
  have h2 : kept_lines c5clipped lines = List.take 94 lines ++ List.drop 100 lines := by
    have hb := kept_from_band (in_delete_set c5clipped) 94 100 (by omega) c5clipped_band lines 0
    simpa [kept_lines] using hb
  have hd200 : List.drop 200 lines = [] := List.drop_eq_nil_of_le (by omega)
  have hd100 : List.drop 100 lines = [] := List.drop_eq_nil_of_le (by omega)
  constructor
  · rw [h1, hd200, List.append_nil]
  · rw [h1, h2, hd200, hd100]

/-- Witness for C5 at the concrete 100-line document `List.range 100`. -/
theorem C5_deletion_oob_witness :
    (List.range 100).length = 100 ∧
    (kept_lines c5ranges (List.range 100) = List.take 94 (List.range 100) ∧
      kept_lines c5ranges (List.range 100) = kept_lines c5clipped (List.range 100)) :=
  ⟨by simp, C5_deletion_oob (List.range 100) (by simp)⟩

/-- Claim C4: for every target file and rule, the transformer overwrites
the input file in place iff the final content differs from the original;
in the unchanged case the verdict is `false` and the file system is
returned untouched; in the changed case the verdict is `true` and exactly
the target path is replaced (a single atomic update, never a partial
write), all other paths keeping their previous contents. -/
theorem C4_overwrite_iff_changed :
    ∀ (fs : String → Option (List Char)) (p : String) (k : EffectKey) (content : List Char),
      fs p = some content →
      ((refactor_content k content = content → refactor_file fs p k = (false, fs)) ∧
       (refactor_content k content ≠ content →
          (refactor_file fs p k).1 = true ∧
          (refactor_file fs p k).2 p = some (refactor_content k content) ∧
          ∀ q, q ≠ p → (refactor_file fs p k).2 q = fs q)) := by
  intro fs p k content h
  constructor
  · intro heq
    simp only [refactor_file, h]
    rw [if_pos heq]
  · intro hne
    simp only [refactor_file, h]
    rw [if_neg hne]
    refine ⟨rfl, ?_, ?_⟩
    · simp
    · intro q hq
      simp [hq]

/-- Witness for C4: a one-character file no step touches is reported
unchanged and the file system is returned as-is. -/
theorem C4_overwrite_iff_changed_witness :
    c4fs "TurntableMoviePage.tsx" = some ("x".data) ∧
    refactor_content EffectKey.turntable ("x".data) = "x".data ∧
    refactor_file c4fs "TurntableMoviePage.tsx" EffectKey.turntable = (false, c4fs) :=
  ⟨by decide, by decide,
    (C4_overwrite_iff_changed c4fs "TurntableMoviePage.tsx" EffectKey.turntable
      ("x".data) (by decide)).1 (by decide)⟩

/-- Claim C7: a missing target path stops the processing of that file
immediately with outcome `false` and no modification of any file; the
driver records that outcome and continues with the remaining files on the
unchanged file system, and every target appears in the final summary. -/
theorem C7_missing_file :
    (∀ (fs : String → Option (List Char)) (p : String) (k : EffectKey),
        fs p = none → refactor_file fs p k = (false, fs)) ∧
    (∀ (fs : String → Option (List Char)) (p : String) (k : EffectKey)
        (rest : List (String × EffectKey)),
        fs p = none →
          run_driver fs ((p, k) :: rest) =
            ((p, false) :: (run_driver fs rest).1, (run_driver fs rest).2)) ∧
    (∀ (fs : String → Option (List Char)) (targets : List (String × EffectKey)),
        ((run_driver fs targets).1).map Prod.fst = targets.map Prod.fst) := by
  have h1 : ∀ (fs : String → Option (List Char)) (p : String) (k : EffectKey),
      fs p = none → refactor_file fs p k = (false, fs) := by
    intro fs p k h
    simp only [refactor_file, h]
  refine ⟨h1, ?_, ?_⟩
  · intro fs p k rest h
    simp only [run_driver, h1 fs p k h]
  · intro fs targets
    induction targets generalizing fs with
    | nil => rfl
    | cons t rest ih =>
      obtain ⟨p, k⟩ := t
      simp only [run_driver, List.map_cons, List.cons.injEq, true_and]
      exact ih _

/-- Witness for C7 on an empty file system with one target. -/
theorem C7_missing_file_witness :
    ((fun _ => none : String → Option (List Char)) "TurntableMoviePage.tsx" = none) ∧
    refactor_file (fun _ => none) "TurntableMoviePage.tsx" EffectKey.turntable =
      (false, fun _ => none) ∧
    run_driver (fun _ => none) [("TurntableMoviePage.tsx", EffectKey.turntable)] =
      ([("TurntableMoviePage.tsx", false)], fun _ => none) ∧
    ((run_driver (fun _ => none)
        [("TurntableMoviePage.tsx", EffectKey.turntable)]).1).map Prod.fst =
      ["TurntableMoviePage.tsx"] := by
  refine ⟨rfl, C7_missing_file.1 _ _ _ rfl, ?_, ?_⟩
  · rw [C7_missing_file.2.1 _ _ _ _ rfl]
    rfl
  · rw [C7_missing_file.2.2]
    rfl

/-- Claim C8: the deletion engine writes only to the output path, which is
distinct from the input path; the input file (and every other path) is
never modified. -/
theorem C8_deletion_sibling_output :
    input_file ≠ output_file ∧
    ∀ fs : String → Option (List Char),
      deletion_main fs input_file = fs input_file ∧
      ∀ p, p ≠ output_file → deletion_main fs p = fs p := by
  have hne : input_file ≠ output_file := by decide
  refine ⟨hne, ?_⟩
  intro fs
  constructor
  · cases hfs : fs input_file with
    | none => simp only [deletion_main, hfs]
    | some content =>
      simp only [deletion_main, hfs]
      rw [if_neg hne]
  · intro p hp
    cases hfs : fs input_file with
    | none => simp only [deletion_main, hfs]
    | some content =>
      simp only [deletion_main, hfs]
      rw [if_neg hp]

/-- Witness for C8 on the empty file system and an unrelated path. -/
theorem C8_deletion_sibling_output_witness :
    ("other.txt" ≠ output_file) ∧
    deletion_main (fun _ => none) input_file =
      (fun _ => (none : Option (List Char))) input_file ∧
    deletion_main (fun _ => none) "other.txt" =
      (fun _ => (none : Option (List Char))) "other.txt" :=
  ⟨by decide, (C8_deletion_sibling_output.2 _).1,
    (C8_deletion_sibling_output.2 _).2 "other.txt" (by decide)⟩

/-- Counterexample to claim C1: an already-migrated document -- the result
of applying the turntable rule to a document consisting of the canvas
boundary marker -- is changed AGAIN by a second application of
`refactor_file` with the same rule: the verdict is `true` and the file is
overwritten, not the claimed `NoOpTransformation` verdict `false` with the
file untouched.  The reason is that the generated controller JSX itself
ends with the canvas marker, so step 6 re-matches on its own output. -/
theorem C1_counterexample :
    (refactor_file c1fs "TurntableMoviePage.tsx" EffectKey.turntable).1 = true ∧
    (refactor_file c1fs "TurntableMoviePage.tsx" EffectKey.turntable).2
        "TurntableMoviePage.tsx" ≠ c1fs "TurntableMoviePage.tsx" := by
  constructor
  · decide
  · decide

/-- Amended C1: a second application with the same rule is NOT in general a
no-op.  For every rule key, re-transforming the already-migrated
transformation of a document consisting of the canvas boundary marker
changes the content again, because the generated controller JSX ends with
the very marker that step 6 anchors on (the insertion markers are not
legacy anchors, so they survive migration and re-match).  For the reveal,
orbit and explosion rules the commented-out legacy import inside the
new-import block likewise re-matches step 1; only for turntable does that
particular re-match not occur, since the constructed line says
`TurntableEffect` while the real class is `TurnTableEffect`. -/
theorem C1_amended_not_idempotent :
    ∀ k : EffectKey,
      refactor_content k (refactor_content k canvas_marker) ≠
        refactor_content k canvas_marker := by
  intro k
  cases k <;> decide

/-- Counterexample to claim C2: for the reveal rule and the document
consisting of exactly the literal legacy import line, the transformed
content still CONTAINS the legacy import line as a substring -- it
survives verbatim inside the commented-out copy that the new-import block
carries -- so the claimed conjunction fails at this input. -/
theorem C2_counterexample :
    ¬ ((EFFECTS EffectKey.reveal).new_import <:+:
          refactor_content EffectKey.reveal (old_import_line (EFFECTS EffectKey.reveal)) ∧
        ¬ old_import_line (EFFECTS EffectKey.reveal) <:+:
          refactor_content EffectKey.reveal (old_import_line (EFFECTS EffectKey.reveal))) := by
  intro hcon
  exact hcon.2 (containsB_iff.mp (by decide))

/-- Amended C2: after the import-substitution step the content contains the
generated new-import block of the rule; but the legacy import line is not
eliminated whenever the constructed legacy line is itself a substring of
the new-import block (which holds for the reveal, orbit and explosion
rules, whose commented-out copy reproduces the constructed line exactly):
in that case the legacy line is still contained in the result. -/
theorem C2_amended_import_swap :
    ∀ (k : EffectKey) (doc : List Char),
      old_import_line (EFFECTS k) <:+: doc →
      (EFFECTS k).new_import <:+: step1 (EFFECTS k) doc ∧
      (old_import_line (EFFECTS k) <:+: (EFFECTS k).new_import →
        old_import_line (EFFECTS k) <:+: step1 (EFFECTS k) doc) := by
  intro k doc h
  have hne : old_import_line (EFFECTS k) ≠ [] := by cases k <;> decide
  constructor
  · exact replaceAll_contains _ _ hne doc h
  · intro hin
    exact List.IsInfix.trans hin (replaceAll_contains _ _ hne doc h)

/-- Witness for amended C2 at the reveal rule and the one-line document. -/
theorem C2_amended_import_swap_witness :
    old_import_line (EFFECTS EffectKey.reveal) <:+:
      old_import_line (EFFECTS EffectKey.reveal) ∧
    ((EFFECTS EffectKey.reveal).new_import <:+:
        step1 (EFFECTS EffectKey.reveal) (old_import_line (EFFECTS EffectKey.reveal)) ∧
      (old_import_line (EFFECTS EffectKey.reveal) <:+: (EFFECTS EffectKey.reveal).new_import →
        old_import_line (EFFECTS EffectKey.reveal) <:+:
          step1 (EFFECTS EffectKey.reveal) (old_import_line (EFFECTS EffectKey.reveal)))) :=
  ⟨ List.infix_refl _, C2_amended_import_swap EffectKey.reveal _ ( List.infix_refl _)⟩

/-!
Step-level helper lemmas shared by the remaining claims. -/

theorem pref_sfx_infx {a t s : List Char} (h1 : a <+: t) (h2 : t <:+ s) : a <:+: s :=
  List.IsInfix.trans (infx_of_pref h1) (infx_of_sfx h2)

/-- Step 5 is a silent no-op when its marker is absent. -/
theorem step5_id (ek : List Char) (c : EffectConfig) {content : List Char}
    (h : ¬ insert_marker <:+: content) : step5 ek c content = content := by
  unfold step5
  exact if_neg fun hc => h (containsB_iff.mp hc)

/-- Step 6 is a silent no-op when its marker is absent. -/
theorem step6_id (ek : List Char) (c : EffectConfig) {content : List Char}
    (h : ¬ canvas_marker <:+: content) : step6 ek c content = content := by
  unfold step6
  exact if_neg fun hc => h (containsB_iff.mp hc)

theorem not_infx_nil {x : List Char} (hx : x ≠ []) : ¬ x <:+: ([] : List Char) := by
  intro h
  obtain ⟨u, v, huv⟩ := h
  have h1 := (List.append_eq_nil.mp huv).1
  exact hx (List.append_eq_nil.mp h1).2

theorem noStrad_nil (x : List Char) :
    ∀ k, 0 < k → k < x.length → ¬ (List.take k x <:+ ([] : List Char)) := by
  intro k hk0 hkl hsfx
  have hnil := List.suffix_nil.mp hsfx
  have hlen := congrArg List.length hnil
  simp only [List.length_take, List.length_nil] at hlen
  omega

/-- A fold of replace-alls over pairs whose patterns are all absent is the
identity. -/
theorem foldl_replace_id (doc : List Char) :
    ∀ (l : List (List Char × List Char)),
      (∀ pr ∈ l, ¬ pr.1 <:+: doc) →
      l.foldl (fun acc pr => replaceAll pr.1 pr.2 acc) doc = doc := by
  intro l
  induction l with
  | nil => intro _; rfl
  | cons pr l ih =>
    intro h
    simp only [List.foldl_cons]
    rw [replaceAll_id pr.1 pr.2 doc (h pr (by simp))]
    exact ih fun q hq => h q (by simp [hq])

/-- When every pattern of the first eleven pairs is absent, step 3 reduces
to the single optional-chaining rewrite. -/
theorem step3_lastOnly (c : EffectConfig) (doc : List Char)
    (h : ∀ pr ∈ frontRepls c, ¬ pr.1 <:+: doc) :
    step3 c doc = replaceAll aOptPat (refForm c) doc := by
  have hdec : replacements c = frontRepls c ++ [(aOptPat, refForm c)] := rfl
  show (replacements c).foldl (fun acc pr => replaceAll pr.1 pr.2 acc) doc = _
  rw [hdec, List.foldl_append, foldl_replace_id doc _ h]
  rfl

/-- Per-key nonemptiness of the key-dependent anchors. -/
theorem sideNe (k : EffectKey) :
    old_import_line (EFFECTS k) ≠ [] ∧ refForm (EFFECTS k) ≠ [] := by
  cases k <;> exact ⟨by decide, by decide⟩

/-- Per-key overlap-freeness of the optional-chaining pattern against its
replacement, and borderlessness of the replacement itself. -/
theorem sideOpt (k : EffectKey) :
    containsB aOptPat (refForm (EFFECTS k)) = false ∧
    noStradB aOptPat (refForm (EFFECTS k)) = true ∧
    noBorderB (refForm (EFFECTS k)) aOptPat = true ∧
    noBorderB (refForm (EFFECTS k)) (refForm (EFFECTS k)) = true := by
  cases k <;> exact ⟨by decide, by decide, by decide, by decide⟩

/-- Per-key overlap-freeness of the anchors of the later steps against the
optional-chaining replacement. -/
theorem sideAnchors (k : EffectKey) :
    ∀ x ∈ [autoActivateA, handleA, animLoopA, autoPlayA, insert_marker, canvas_marker],
      x ≠ [] ∧ containsB x (refForm (EFFECTS k)) = false ∧
      noStradB x (refForm (EFFECTS k)) = true ∧
      noBorderB (refForm (EFFECTS k)) x = true := by
  cases k <;> decide

/-- Counterexample to claim C6: the turntable rule on a document with
exactly three legacy optional-chaining accesses AND one legacy `play()`
call produces FOUR occurrences of the rewritten reference-based form, not
the claimed exactly three, because the earlier method-call rewrites also
emit the `<ref_name>.current?.` prefix. -/
theorem C6_counterexample :
    countOccs aOptPat c6doc = 3 ∧
    countOccs (refForm (EFFECTS EffectKey.turntable))
      (refactor_content EffectKey.turntable c6doc) = 4 := by
  constructor
  · decide
  · decide

/-- Amended C6: for every rule key and every document with exactly three
occurrences of the legacy optional-chaining pattern that contains no
occurrence of the rewritten form, none of the other ten legacy
instance-access patterns, and none of the anchors or markers of the other steps,
the transformed content has zero remaining legacy matches and exactly
three occurrences of the rewritten reference-based form: the rewrite is
global, not first-occurrence-only. -/
theorem C6_amended_global_rewrite :
    ∀ (k : EffectKey) (doc : List Char),
      countOccs aOptPat doc = 3 →
      ¬ refForm (EFFECTS k) <:+: doc →
      (∀ pr ∈ frontRepls (EFFECTS k), ¬ pr.1 <:+: doc) →
      ¬ old_import_line (EFFECTS k) <:+: doc →
      ¬ old_state <:+: doc →
      ¬ autoActivateA <:+: doc →
      ¬ handleA <:+: doc →
      ¬ animLoopA <:+: doc →
      ¬ autoPlayA <:+: doc →
      ¬ insert_marker <:+: doc →
      ¬ canvas_marker <:+: doc →
      countOccs aOptPat (refactor_content k doc) = 0 ∧
      countOccs (refForm (EFFECTS k)) (refactor_content k doc) = 3 := by
  intro k doc h3 hrf hfront h1 h2 ha1 ha2 ha3 ha4 hm5 hm6
  have hOptNe : aOptPat ≠ [] := by decide
  have hrfNe : refForm (EFFECTS k) ≠ [] := (sideNe k).2
  have e1 : step1 (EFFECTS k) doc = doc := replaceAll_id _ _ doc h1
  have e2 : step2 (EFFECTS k) doc = doc := replaceAll_id _ _ doc h2
  set R := replaceAll aOptPat (refForm (EFFECTS k)) doc with hR
  have e3 : step3 (EFFECTS k) doc = R := step3_lastOnly _ _ hfront
  have hcOpt := noBorderB_sound (refForm (EFFECTS k)) aOptPat (sideOpt k).2.2.1
  have hnoLeft : ¬ aOptPat <:+: R :=
    noIntro aOptPat (refForm (EFFECTS k)) aOptPat hOptNe hOptNe
      (not_infx_of_containsB (sideOpt k).1)
      (noStradB_sound _ _ (sideOpt k).2.1)
      hcOpt doc (Or.inl ( List.prefix_refl _))
  have hcnt0 : countOccs aOptPat R = 0 := countOccs_zero _ _ hnoLeft
  have hcRf := noBorderB_sound (refForm (EFFECTS k)) (refForm (EFFECTS k)) (sideOpt k).2.2.2
  have hcnt3 : countOccs (refForm (EFFECTS k)) R = countOccs aOptPat doc :=
    countQ aOptPat (refForm (EFFECTS k)) (refForm (EFFECTS k)) [] [] hOptNe hrfNe
      (by simp) (not_infx_nil hrfNe) (noStrad_nil _) (not_infx_nil hrfNe) (noStrad_nil _)
      hcRf doc (Or.inr hrf)
  have hkeep : ∀ x ∈ [autoActivateA, handleA, animLoopA, autoPlayA, insert_marker,
      canvas_marker], ¬ x <:+: doc → ¬ x <:+: R := by
    intro x hx hnx
    obtain ⟨hxne, hcont, hstrad, hbord⟩ := sideAnchors k x hx
    exact noIntro aOptPat (refForm (EFFECTS k)) x hOptNe hxne
      (not_infx_of_containsB hcont) (noStradB_sound _ _ hstrad)
      (noBorderB_sound _ _ hbord) doc (Or.inr hnx)
  have hb1 : ¬ autoActivateA <:+: R := hkeep _ (by simp) ha1
  have hb2 : ¬ handleA <:+: R := hkeep _ (by simp) ha2
  have hb3 : ¬ animLoopA <:+: R := hkeep _ (by simp) ha3
  have hb4 : ¬ autoPlayA <:+: R := hkeep _ (by simp) ha4
  have hb5 : ¬ insert_marker <:+: R := hkeep _ (by simp) hm5
  have hb6 : ¬ canvas_marker <:+: R := hkeep _ (by simp) hm6
  have e4a : step4a R = R :=
    scanSub_id _ _ _ fun t ht => tryLazy1_none _ fun hp => hb1 (pref_sfx_infx hp ht)
  have e4b : step4b R = R :=
    scanSub_id _ _ _ fun t ht => tryGreedyLazy_none _ _ fun hp => hb2 (pref_sfx_infx hp ht)
  have e4c : step4c R = R :=
    scanSub_id _ _ _ fun t ht => tryLazy2_none _ _ fun hp => hb3 (pref_sfx_infx hp ht)
  have e4d : step4d R = R :=
    scanSub_id _ _ _ fun t ht => tryLazy2_none _ _ fun hp => hb4 (pref_sfx_infx hp ht)
  have e4 : step4 R = R := by
    rw [step4, e4a, e4b, e4c, e4d]
  have e5 : step5 (keyName k) (EFFECTS k) R = R := step5_id _ _ hb5
  have e6 : step6 (keyName k) (EFFECTS k) R = R := step6_id _ _ hb6
  have efinal : refactor_content k doc = R := by
    rw [refactor_content, e1, e2, e3, e4, e5, e6]
  rw [efinal, hcnt0, hcnt3, h3]
  exact ⟨rfl, rfl⟩

/-- Witness for amended C6 at the turntable rule and a document holding
exactly the three optional-chaining accesses. -/
theorem C6_amended_global_rewrite_witness :
    countOccs aOptPat c6wdoc = 3 ∧
    (countOccs aOptPat (refactor_content EffectKey.turntable c6wdoc) = 0 ∧
      countOccs (refForm (EFFECTS EffectKey.turntable))
        (refactor_content EffectKey.turntable c6wdoc) = 3) :=
  ⟨by decide,
    C6_amended_global_rewrite EffectKey.turntable c6wdoc (by decide) (by decide)
      (by decide) (by decide) (by decide) (by decide) (by decide) (by decide)
      (by decide) (by decide) (by decide)⟩

/-- Claim C9: every transformation step is total (a pure function -- no
error is possible), and absence of the anchor, pattern or marker of a step
makes that step leave the content unchanged, a silent no-op, while the
other steps still apply independently; in particular, when the insertion
marker is absent from the post-step-4 content, the full pipeline equals
the pipeline with the insertion step skipped (so e.g. the import swap of a
marker-free document is unaffected). -/
theorem C9_steps_total :
    ∀ (k : EffectKey) (doc : List Char),
      (¬ old_import_line (EFFECTS k) <:+: doc → step1 (EFFECTS k) doc = doc) ∧
      (¬ old_state <:+: doc → step2 (EFFECTS k) doc = doc) ∧
      ((∀ pr ∈ replacements (EFFECTS k), ¬ pr.1 <:+: doc) → step3 (EFFECTS k) doc = doc) ∧
      (¬ autoActivateA <:+: doc → step4a doc = doc) ∧
      (¬ handleA <:+: doc → step4b doc = doc) ∧
      (¬ animLoopA <:+: doc → step4c doc = doc) ∧
      (¬ autoPlayA <:+: doc → step4d doc = doc) ∧
      (¬ insert_marker <:+: doc → step5 (keyName k) (EFFECTS k) doc = doc) ∧
      (¬ canvas_marker <:+: doc → step6 (keyName k) (EFFECTS k) doc = doc) ∧
      (¬ insert_marker <:+:
          step4 (step3 (EFFECTS k) (step2 (EFFECTS k) (step1 (EFFECTS k) doc))) →
        refactor_content k doc =
          step6 (keyName k) (EFFECTS k)
            (step4 (step3 (EFFECTS k) (step2 (EFFECTS k) (step1 (EFFECTS k) doc))))) := by
  intro k doc
  refine ⟨?_, ?_, ?_, ?_, ?_, ?_, ?_, ?_, ?_, ?_⟩
  · intro h; exact replaceAll_id _ _ doc h
  · intro h; exact replaceAll_id _ _ doc h
  · intro h; exact foldl_replace_id doc _ h
  · intro h
    exact scanSub_id _ _ _ fun t ht => tryLazy1_none _ fun hp => h (pref_sfx_infx hp ht)
  · intro h
    exact scanSub_id _ _ _ fun t ht => tryGreedyLazy_none _ _ fun hp => h (pref_sfx_infx hp ht)
  · intro h
    exact scanSub_id _ _ _ fun t ht => tryLazy2_none _ _ fun hp => h (pref_sfx_infx hp ht)
  · intro h
    exact scanSub_id _ _ _ fun t ht => tryLazy2_none _ _ fun hp => h (pref_sfx_infx hp ht)
  · intro h
    exact step5_id _ _ h
  · intro h
    exact step6_id _ _ h
  · intro h
    simp only [refactor_content]
    rw [step5_id _ _ h]

/-- Witness for C9 at a document containing no anchor of any step. -/
theorem C9_steps_total_witness :
    step1 (EFFECTS EffectKey.turntable) "hello".data = "hello".data ∧
    step2 (EFFECTS EffectKey.turntable) "hello".data = "hello".data ∧
    step3 (EFFECTS EffectKey.turntable) "hello".data = "hello".data ∧
    step4a "hello".data = "hello".data ∧
    step4b "hello".data = "hello".data ∧
    step4c "hello".data = "hello".data ∧
    step4d "hello".data = "hello".data ∧
    step5 (keyName EffectKey.turntable) (EFFECTS EffectKey.turntable) "hello".data =
      "hello".data ∧
    step6 (keyName EffectKey.turntable) (EFFECTS EffectKey.turntable) "hello".data =
      "hello".data ∧
    refactor_content EffectKey.turntable "hello".data =
      step6 (keyName EffectKey.turntable) (EFFECTS EffectKey.turntable)
        (step4 (step3 (EFFECTS EffectKey.turntable) (step2 (EFFECTS EffectKey.turntable)
          (step1 (EFFECTS EffectKey.turntable) "hello".data)))) := by
  obtain ⟨h1, h2, h3, h4, h5, h6, h7, h8, h9, h10⟩ :=
    C9_steps_total EffectKey.turntable ("hello".data)
  exact ⟨h1 (by decide), h2 (by decide), h3 (by decide), h4 (by decide), h5 (by decide),
    h6 (by decide), h7 (by decide), h8 (by decide), h9 (by decide), h10 (by decide)⟩

/-- Per-key overlap-freeness data for the step-5 marker against the
generated fragment. -/
theorem c10side5 (k : EffectKey) :
    containsB insert_marker (initial_config_frag (keyName k) (EFFECTS k)) = false ∧
    noStradB insert_marker (initial_config_frag (keyName k) (EFFECTS k)) = true ∧
    noBorderB (insert_marker ++ initial_config_frag (keyName k) (EFFECTS k))
      insert_marker = true ∧
    noBorderB (insert_marker ++ initial_config_frag (keyName k) (EFFECTS k))
      (insert_marker ++ initial_config_frag (keyName k) (EFFECTS k)) = true := by
  cases k <;> exact ⟨by decide, by decide, by decide, by decide⟩

/-- Per-key decomposition of the controller JSX and overlap-freeness data
for the step-6 marker. -/
theorem c10side6 (k : EffectKey) :
    controller_jsx (keyName k) (EFFECTS k) =
      jsxHead (keyName k) (EFFECTS k) ++ (canvas_marker ++ []) ∧
    containsB canvas_marker (jsxHead (keyName k) (EFFECTS k)) = false ∧
    noStradB canvas_marker (jsxHead (keyName k) (EFFECTS k)) = true ∧
    noBorderB (controller_jsx (keyName k) (EFFECTS k)) canvas_marker = true ∧
    noBorderB (controller_jsx (keyName k) (EFFECTS k))
      (controller_jsx (keyName k) (EFFECTS k)) = true := by
  cases k <;> exact ⟨by decide, by decide, by decide, by decide, by decide⟩

/-- Claim C10: both anchored insertions are performed by global substring
replacement, so for every document the generated fragment is inserted at
EVERY marker occurrence, not only the first: in the output, the number of
marker occurrences is unchanged, and the number of occurrences of
marker-plus-fragment (step 5) resp. fragment-plus-marker (step 6, i.e. the
whole controller JSX, which ends with the marker) equals the number of
marker occurrences in the input.  (For step 6 the count statement assumes
the document does not already contain the generated JSX block.) -/
theorem C10_insertion_at_every_marker :
    ∀ (k : EffectKey) (doc : List Char),
      ¬ controller_jsx (keyName k) (EFFECTS k) <:+: doc →
      (countOccs insert_marker (step5 (keyName k) (EFFECTS k) doc) =
          countOccs insert_marker doc ∧
        countOccs (insert_marker ++ initial_config_frag (keyName k) (EFFECTS k))
            (step5 (keyName k) (EFFECTS k) doc) =
          countOccs insert_marker doc) ∧
      (countOccs canvas_marker (step6 (keyName k) (EFFECTS k) doc) =
          countOccs canvas_marker doc ∧
        countOccs (controller_jsx (keyName k) (EFFECTS k))
            (step6 (keyName k) (EFFECTS k) doc) =
          countOccs canvas_marker doc) := by
  intro k doc hnj
  have hm5ne : insert_marker ≠ [] := by decide
  have hcmne : canvas_marker ≠ [] := by decide
  constructor
  · by_cases hin : containsB insert_marker doc = true
    · have e5 : step5 (keyName k) (EFFECTS k) doc =
          replaceAll insert_marker
            (insert_marker ++ initial_config_frag (keyName k) (EFFECTS k)) doc := by
        simp only [step5, hin]
        rfl
      rw [e5]
      constructor
      · exact countQ insert_marker _ insert_marker []
          (initial_config_frag (keyName k) (EFFECTS k)) hm5ne hm5ne (by simp)
          (not_infx_nil hm5ne) (noStrad_nil _)
          (not_infx_of_containsB (c10side5 k).1)
          (noStradB_sound _ _ (c10side5 k).2.1)
          (noBorderB_sound _ _ (c10side5 k).2.2.1) doc (Or.inl ( List.prefix_refl _))
      · have hq2ne : insert_marker ++ initial_config_frag (keyName k) (EFFECTS k) ≠ [] := by
          intro hcon
          exact hm5ne (List.append_eq_nil.mp hcon).1
        exact countQ insert_marker _
          (insert_marker ++ initial_config_frag (keyName k) (EFFECTS k)) [] []
          hm5ne hq2ne (by simp) (not_infx_nil hq2ne) (noStrad_nil _)
          (not_infx_nil hq2ne) (noStrad_nil _)
          (noBorderB_sound _ _ (c10side5 k).2.2.2) doc
          (Or.inl ( List.prefix_append _ _))
    · have hf : containsB insert_marker doc = false := by
        cases hb : containsB insert_marker doc with
        | false => rfl
        | true => exact absurd hb hin
      have hnin : ¬ insert_marker <:+: doc := not_infx_of_containsB hf
      have e5 : step5 (keyName k) (EFFECTS k) doc = doc := step5_id _ _ hnin
      rw [e5]
      refine ⟨rfl, ?_⟩
      rw [countOccs_zero _ _ hnin, countOccs_zero _ _ ?_]
      intro hcon
      exact hnin (List.IsInfix.trans (infx_of_pref ( List.prefix_append _ _)) hcon)
  · by_cases hin : containsB canvas_marker doc = true
    · have e6 : step6 (keyName k) (EFFECTS k) doc =
          replaceAll canvas_marker (controller_jsx (keyName k) (EFFECTS k)) doc := by
        simp only [step6, hin]
        rfl
      rw [e6]
      constructor
      · exact countQ canvas_marker _ canvas_marker (jsxHead (keyName k) (EFFECTS k)) []
          hcmne hcmne (c10side6 k).1
          (not_infx_of_containsB (c10side6 k).2.1)
          (noStradB_sound _ _ (c10side6 k).2.2.1)
          (not_infx_nil hcmne) (noStrad_nil _)
          (noBorderB_sound _ _ (c10side6 k).2.2.2.1) doc (Or.inl ( List.prefix_refl _))
      · have hjne : controller_jsx (keyName k) (EFFECTS k) ≠ [] := by
          intro hcon
          rw [(c10side6 k).1] at hcon
          have h1 := (List.append_eq_nil.mp hcon).2
          exact hcmne (List.append_eq_nil.mp h1).1
        exact countQ canvas_marker _ (controller_jsx (keyName k) (EFFECTS k)) [] []
          hcmne hjne (by simp) (not_infx_nil hjne) (noStrad_nil _)
          (not_infx_nil hjne) (noStrad_nil _)
          (noBorderB_sound _ _ (c10side6 k).2.2.2.2) doc (Or.inr hnj)
    · have hf : containsB canvas_marker doc = false := by
        cases hb : containsB canvas_marker doc with
        | false => rfl
        | true => exact absurd hb hin
      have hnin : ¬ canvas_marker <:+: doc := not_infx_of_containsB hf
      have e6 : step6 (keyName k) (EFFECTS k) doc = doc := step6_id _ _ hnin
      rw [e6]
      refine ⟨rfl, ?_⟩
      rw [countOccs_zero _ _ hnin, countOccs_zero _ _ ?_]
      intro hcon
      apply hnin
      have hsfx : canvas_marker <:+ controller_jsx (keyName k) (EFFECTS k) := by
        rw [(c10side6 k).1, List.append_nil]
        exact ⟨jsxHead (keyName k) (EFFECTS k), rfl⟩
      exact List.IsInfix.trans (infx_of_sfx hsfx) hcon

/-- Witness for C10 at the turntable rule and a document consisting of the
step-5 marker alone (one marker occurrence, fragment inserted once). -/
theorem C10_insertion_at_every_marker_witness :
    ¬ controller_jsx (keyName EffectKey.turntable) (EFFECTS EffectKey.turntable) <:+:
        insert_marker ∧
    ((countOccs insert_marker
          (step5 (keyName EffectKey.turntable) (EFFECTS EffectKey.turntable) insert_marker) =
        countOccs insert_marker insert_marker ∧
      countOccs (insert_marker ++
            initial_config_frag (keyName EffectKey.turntable) (EFFECTS EffectKey.turntable))
          (step5 (keyName EffectKey.turntable) (EFFECTS EffectKey.turntable) insert_marker) =
        countOccs insert_marker insert_marker) ∧
     (countOccs canvas_marker
          (step6 (keyName EffectKey.turntable) (EFFECTS EffectKey.turntable) insert_marker) =
        countOccs canvas_marker insert_marker ∧
      countOccs (controller_jsx (keyName EffectKey.turntable) (EFFECTS EffectKey.turntable))
          (step6 (keyName EffectKey.turntable) (EFFECTS EffectKey.turntable) insert_marker) =
        countOccs canvas_marker insert_marker)) :=
  ⟨by decide, C10_insertion_at_every_marker EffectKey.turntable insert_marker (by decide)⟩

end KoosPuzzle
